/-
Verification of the core algorithms of the map clustering service (app.py):
the cluster size planner, the cluster assembler, the recursive hierarchical
splitter, and the pin radius search engine.  Machine integers of the source
are modelled as Nat/Int, Python float arithmetic as exact rationals, and the
external geo/clustering primitives (Earth Engine queries, scipy fcluster) as
explicit oracle functions passed in as parameters.
-/
import Mathlib

/-! ## Cluster Size Planner (source: app.py, def with leading underscore,
calculate_cluster_sizes, lines 55-65).
Returns (base_size, min_size, max_size). -/

def calculate_cluster_sizes (n_samples num_clusters : ℕ) (balance_tolerance : ℚ) :
    ℤ × ℤ × ℤ :=
  let base_size : ℤ := ⌈(n_samples : ℚ) / (num_clusters : ℚ)⌉
  if balance_tolerance = 0 then
    (base_size, ⌊(n_samples : ℚ) / (num_clusters : ℚ)⌋, base_size)
  else
    (base_size,
     if num_clusters = 1 then base_size
     else ⌊(base_size : ℚ) * (1 - balance_tolerance)⌋,
     if num_clusters = 1 then base_size
     else ⌈(base_size : ℚ) * (1 + balance_tolerance)⌉)

/-- The planner contract exactly as the specification words it (spec section 4.2),
to be compared with the source definition above. -/
def planSizesSpec (nSamples numClusters : ℕ) (tolerance : ℚ) : ℤ × ℤ × ℤ :=
  let base : ℤ := ⌈(nSamples : ℚ) / (numClusters : ℚ)⌉
  if tolerance = 0 then
    (base, ⌊(nSamples : ℚ) / (numClusters : ℚ)⌋, base)
  else if numClusters = 1 then
    (base, base, base)
  else
    (base, ⌊(base : ℚ) * (1 - tolerance)⌋, ⌈(base : ℚ) * (1 + tolerance)⌉)

/-! ## Cluster Assembler (source: app.py, getClusters, lines 205-218). -/

/-- A building point: longitude and latitude in degrees. -/
structure Pt where
  x : ℚ
  y : ℚ
deriving DecidableEq, Repr

/-- One output record of the assembler. -/
structure ClusterResult where
  coordinates : List ℚ
  cluster : ℤ
  numOfBuildings : ℕ
deriving DecidableEq, Repr

/-- Source: getClusters.  Python zip truncates to the shorter of the two
sequences; the Counter of populations is taken over the whole label array. -/
def getClusters (coords : List Pt) (cluster_labels : List ℤ) : List ClusterResult :=
  (coords.zip cluster_labels).map
    (fun p =>
      { coordinates := [p.1.x, p.1.y]
        cluster := p.2
        numOfBuildings := cluster_labels.count p.2 })

/-! ## Recursive Hierarchical Splitter
(source: app.py, cluster_buildings_with_size, lines 160-202).
The scipy linkage/fcluster primitive is an external oracle G : points, distance
threshold to provisional labels; scipy always returns exactly one label per
point, so a response of any other length is modelled as a failure (numpy
boolean indexing with a wrong-sized mask raises).  The nonlocal
cluster_counter is threaded through explicitly; the unbounded Python
recursion is given a fuel argument, with exhaustion modelled as none. -/

/-- Boolean-mask selection, as numpy xs[mask]. -/
def maskFilter {α : Type} (xs : List α) (mask : List Bool) : List α :=
  ((xs.zip mask).filter (fun p => p.2)).map (fun p => p.1)

/-- Masked in-place assignment of one value, as numpy xs[mask] = v. -/
def assignMask (base : List ℤ) (mask : List Bool) (v : ℤ) : List ℤ :=
  (base.zip mask).map (fun p => if p.2 then v else p.1)

/-- Masked in-place assignment of a vector of values, as numpy
xs[mask] = vals: positions where the mask is true receive the successive
elements of vals; a length mismatch is a failure. -/
def splice : List ℤ → List Bool → List ℤ → Option (List ℤ)
  | [], [], [] => some []
  | b :: bs, false :: ms, vs => (splice bs ms vs).map (fun t => b :: t)
  | _ :: bs, true :: ms, v :: vs2 => (splice bs ms vs2).map (fun t => v :: t)
  | _, _, _ => none

/-- Ascending insertion into a list of labels. -/
def insertSorted (x : ℤ) : List ℤ → List ℤ
  | [] => [x]
  | y :: ys => if x ≤ y then x :: y :: ys else y :: insertSorted x ys

/-- np.unique: the sorted list of distinct values. -/
def dedupSort (ls : List ℤ) : List ℤ :=
  ls.dedup.foldr insertSorted []

/-- The body of the for-loop over np.unique(labels): each provisional group is
either recursively split (when its population exceeds max_buildings and
thresholdVal < 1) or finalized with the next fresh cluster id.  The recursive
call of the source is abstracted as the recurse argument. -/
def goGroups (maxB : ℕ) (tv : ℚ)
    (recurse : List Pt → ℚ → ℕ → Option (List ℤ × ℕ))
    (coords : List Pt) (labels : List ℤ) (threshold : ℚ) :
    List ℤ → List ℤ → ℕ → Option (List ℤ × ℕ)
  | [], newLabels, counter => some (newLabels, counter)
  | cl :: rest, newLabels, counter =>
    let mask := labels.map (fun l => l == cl)
    if maxB < labels.count cl ∧ tv < 1 then
      match recurse (maskFilter coords mask) (threshold * tv) counter with
      | none => none
      | some sc =>
        match splice newLabels mask sc.1 with
        | none => none
        | some nl => goGroups maxB tv recurse coords labels threshold rest nl sc.2
    else
      goGroups maxB tv recurse coords labels threshold rest
        (assignMask newLabels mask (counter : ℤ)) (counter + 1)

/-- Source: the inner function hierarchical_clustering.  Returns the label
array together with the updated shared counter. -/
def hCluster (G : List Pt → ℚ → List ℤ) (maxB : ℕ) (tv : ℚ) :
    ℕ → List Pt → ℚ → ℕ → Option (List ℤ × ℕ)
  | 0 => fun _ _ _ => none
  | fuel + 1 => fun coords threshold counter =>
    if coords.isEmpty then some ([], counter)
    else
      let labels := G coords threshold
      if labels.length = coords.length then
        goGroups maxB tv (hCluster G maxB tv fuel) coords labels threshold
          (dedupSort labels) (List.replicate coords.length 0) counter
      else none

/-- np.ptp(coords, axis=0).max(): the larger of the two coordinate ranges.
Defined on a nonempty list given as head and tail. -/
def ptpMax (c : Pt) (cs : List Pt) : ℚ :=
  let xs := (c :: cs).map Pt.x
  let ys := (c :: cs).map Pt.y
  max (xs.foldl max c.x - xs.foldl min c.x) (ys.foldl max c.y - ys.foldl min c.y)

/-- Source: cluster_buildings_with_size (the labeling part; the final
getClusters conversion is applied by the caller as in the source).  On an
empty input np.ptp raises, modelled as none. -/
def cluster_buildings_with_size (G : List Pt → ℚ → List ℤ)
    (coords : List Pt) (max_buildings : ℕ) (thresholdVal : ℚ) (fuel : ℕ) :
    Option (List ℤ) :=
  match coords with
  | [] => none
  | c :: cs =>
    let distance_threshold := ptpMax c cs * (1 / 10)
    (hCluster G max_buildings thresholdVal fuel (c :: cs) distance_threshold 1).map
      (fun p => p.1)

/-! ## Radius Search Engine
(source: app.py, getBuildingsAroundPin, lines 524-611, with create_bbox and
fetch_buildings).  The Earth Engine oracle is modelled as a function fetch
from the half-width of the bounding box, in degrees, to the list of buildings
inside the box, each carrying its attached distance sort key; the size query
and the getInfo fetch are the same deterministic oracle.  The factor q is
km_to_deg applied to 1 km at the latitude of the pin; it is positive exactly
when the latitude is strictly between -90 and 90 degrees.  All radii of the
source are q times the radius in km: initial 2 * q, cap 10 * q, bisection
precision q / 10.  Python floats are modelled as exact rationals.  The two
while loops are modelled with a fuel of 100, far above the bounds of at most
4 expansion steps and at most 7 bisection steps proved below, so the fuelled
loops agree with the unbounded ones. -/

/-- A building together with the distance sort key attached by
fetch_buildings. -/
structure Building where
  lng : ℚ
  lat : ℚ
  dist : ℚ
deriving DecidableEq, Repr

/-- Ascending insertion by the distance key. -/
def insertByDist (b : Building) : List Building → List Building
  | [] => [b]
  | c :: cs => if b.dist ≤ c.dist then b :: c :: cs else c :: insertByDist b cs

/-- The sort by the distance key applied by sort applied to the collection. -/
def sortByDist : List Building → List Building
  | [] => []
  | b :: bs => insertByDist b (sortByDist bs)

/-- Python int() applied to a rational: truncation toward zero. -/
def pyInt (x : ℚ) : ℤ := if 0 ≤ x then ⌊x⌋ else ⌈x⌉

/-- min_buildings of the source: int(total_buildings_needed * (1 - tolerance)). -/
def bandMin (total : ℕ) (tol : ℚ) : ℤ := pyInt ((total : ℚ) * (1 - tol))

/-- max_buildings of the source: int(total_buildings_needed * (1 + tolerance)). -/
def bandMax (total : ℕ) (tol : ℚ) : ℤ := pyInt ((total : ℚ) * (1 + tol))

/-- The expansion while loop: while building_count < min_buildings and
delta < max_delta, grow delta by 1.5x capped at max_delta and re-query. -/
def expandLoop (fetch : ℚ → List Building) (minB : ℤ) (maxDelta : ℚ) :
    ℕ → ℚ → ℕ → ℚ × ℕ
  | 0, delta, cnt => (delta, cnt)
  | fuel + 1, delta, cnt =>
    if (cnt : ℤ) < minB ∧ delta < maxDelta then
      let d := min (delta * (3 / 2)) maxDelta
      expandLoop fetch minB maxDelta fuel d (fetch d).length
    else (delta, cnt)

/-- The bisection while loop: while right - left > precision, probe the
midpoint; on a sufficient count move right, otherwise move left.  Returns the
final pair (left, right). -/
def bisectLoop (fetch : ℚ → List Building) (minB : ℤ) (precision : ℚ) :
    ℕ → ℚ → ℚ → ℚ × ℚ
  | 0, l, r => (l, r)
  | fuel + 1, l, r =>
    if precision < r - l then
      let mid := (l + r) / 2
      if minB ≤ ((fetch mid).length : ℤ) then
        bisectLoop fetch minB precision fuel l mid
      else
        bisectLoop fetch minB precision fuel mid r
    else (l, r)

/-- The expansion phase: initial query at delta = 2 * q followed by the
expansion loop. -/
def expandPhase (fetch : ℚ → List Building) (q : ℚ) (total : ℕ) (tol : ℚ) :
    ℚ × ℕ :=
  expandLoop fetch (bandMin total tol) (10 * q) 100 (2 * q) (fetch (2 * q)).length

/-- Source: getBuildingsAroundPin, returning the final feature list. -/
def getBuildingsAroundPin (fetch : ℚ → List Building) (q : ℚ) (total : ℕ)
    (tol : ℚ) : List Building :=
  let minB := bandMin total tol
  let maxB := bandMax total tol
  let s := expandPhase fetch q total tol
  let result :=
    if (s.2 : ℤ) < minB then
      sortByDist (fetch s.1)
    else
      let lr := bisectLoop fetch minB (q / 10) 100 (2 * q) s.1
      (sortByDist (fetch lr.2)).take maxB.toNat
  if maxB < (result.length : ℤ) then result.take total else result

/-- Modelled from the spec, section 4.4 and claim C4: an expansion loop that
also records the last sub-threshold radius, the last radius whose count was
below the lower bound of the band; the claimed bisection interval starts
there rather than at the initial radius. -/
def expandLoopLastSub (fetch : ℚ → List Building) (minB : ℤ) (maxDelta : ℚ) :
    ℕ → ℚ → ℕ → ℚ → ℚ × ℕ × ℚ
  | 0, delta, cnt, last => (delta, cnt, last)
  | fuel + 1, delta, cnt, last =>
    if (cnt : ℤ) < minB ∧ delta < maxDelta then
      let d := min (delta * (3 / 2)) maxDelta
      expandLoopLastSub fetch minB maxDelta fuel d (fetch d).length delta
    else (delta, cnt, last)

/-- Modelled from the spec: the expansion phase recording the last
sub-threshold radius, initialized to the initial radius. -/
def expandPhaseLastSub (fetch : ℚ → List Building) (q : ℚ) (total : ℕ)
    (tol : ℚ) : ℚ × ℕ × ℚ :=
  expandLoopLastSub fetch (bandMin total tol) (10 * q) 100 (2 * q)
    (fetch (2 * q)).length (2 * q)

/-- Modelled from the spec, claim C4: the engine as the claim describes it,
identical to the source except that the bisection interval starts at the last
sub-threshold radius of the expansion phase. -/
def getBuildingsAroundPinClaimC4 (fetch : ℚ → List Building) (q : ℚ)
    (total : ℕ) (tol : ℚ) : List Building :=
  let minB := bandMin total tol
  let maxB := bandMax total tol
  let s := expandPhaseLastSub fetch q total tol
  let result :=
    if (s.2.1 : ℤ) < minB then
      sortByDist (fetch s.1)
    else
      let lr := bisectLoop fetch minB (q / 10) 100 s.2.2 s.1
      (sortByDist (fetch lr.2)).take maxB.toNat
  if maxB < (result.length : ℤ) then result.take total else result

/-- A uniform oracle for the C1 witness: 100 buildings at every radius. -/
def fetchC1 : ℚ → List Building := fun _ => List.replicate 100 ⟨0, 0, 0⟩

/-- A distance-zero building for counterexample oracles. -/
def bOne : Building := ⟨0, 0, 0⟩

/-- A second, distinct building for counterexample oracles. -/
def bTwo : Building := ⟨1, 1, 1⟩

/-- The oracle of the C4 counterexample, with q = 1: the count is 9 below
radius 4.2 and 10 at or above it, and the identity of the buildings changes
at radius 4.25, so converging to different radii yields different sets. -/
def fetchC4 : ℚ → List Building := fun r =>
  if r < 21 / 5 then List.replicate 9 bOne
  else if r < 17 / 4 then List.replicate 10 bOne
  else List.replicate 10 bTwo

/-- An oracle that puts every point into one provisional group labelled 1. -/
def oracleOne : List Pt → ℚ → List ℤ := fun cs _ => cs.map (fun _ => 1)

/-- An oracle that puts every point into one provisional group labelled 7. -/
def oracleSeven : List Pt → ℚ → List ℤ := fun cs _ => cs.map (fun _ => 7)

/-! ## Theorems -/

/-- C3: for all nSamples >= 0, numClusters >= 1 and 0 <= tolerance < 1, the
planner computes base = ceil(n/k); with tolerance 0, min = floor(n/k) and
max = base; otherwise min = max = base for one cluster and
min = floor(base*(1-tol)), max = ceil(base*(1+tol)) for several; this agrees
with the spec wording and satisfies min <= base <= max. -/
theorem planner_sizes_C3 (n k : ℕ) (tol : ℚ) (hk : 1 ≤ k) (h0 : 0 ≤ tol)
    (h1 : tol < 1) :
    calculate_cluster_sizes n k tol = planSizesSpec n k tol ∧
    (calculate_cluster_sizes n k tol).2.1 ≤ (calculate_cluster_sizes n k tol).1 ∧
    (calculate_cluster_sizes n k tol).1 ≤ (calculate_cluster_sizes n k tol).2.2 := by
  have hdiv : (0:ℚ) ≤ (n : ℚ) / (k : ℚ) := by positivity
  have hbase0 : (0:ℤ) ≤ ⌈(n : ℚ) / (k : ℚ)⌉ := Int.ceil_nonneg hdiv
  have hbase0Q : (0:ℚ) ≤ (⌈(n : ℚ) / (k : ℚ)⌉ : ℚ) := by exact_mod_cast hbase0
  by_cases ht : tol = 0
  · subst ht
    refine ⟨by simp [calculate_cluster_sizes, planSizesSpec], ?_, ?_⟩ <;>
      simp [calculate_cluster_sizes]
    exact Int.floor_le_ceil _
  · by_cases hk1 : k = 1
    · subst hk1
      refine ⟨by simp [calculate_cluster_sizes, planSizesSpec, ht], ?_, ?_⟩ <;>
        simp [calculate_cluster_sizes, ht]
    · refine ⟨by simp [calculate_cluster_sizes, planSizesSpec, ht, hk1], ?_, ?_⟩ <;>
        simp [calculate_cluster_sizes, ht, hk1]
      · calc ⌊(⌈(n : ℚ) / (k : ℚ)⌉ : ℚ) * (1 - tol)⌋
            ≤ ⌊(⌈(n : ℚ) / (k : ℚ)⌉ : ℚ)⌋ := Int.floor_le_floor (by nlinarith)
          _ = ⌈(n : ℚ) / (k : ℚ)⌉ := Int.floor_intCast _
      · calc ⌈(n : ℚ) / (k : ℚ)⌉
            = ⌈(⌈(n : ℚ) / (k : ℚ)⌉ : ℚ)⌉ := (Int.ceil_intCast _).symm
          _ ≤ ⌈(⌈(n : ℚ) / (k : ℚ)⌉ : ℚ) * (1 + tol)⌉ :=
            Int.ceil_le_ceil (by nlinarith)

/-- Witness for C3 at the instance of the claim: planner on (10, 3, 0.05)
yields base 4, min 3, max 5, and the bounds hold there. -/
theorem planner_sizes_C3_witness :
    calculate_cluster_sizes 10 3 (1/20) = (4, 3, 5) ∧
    (calculate_cluster_sizes 10 3 (1/20)).2.1
      ≤ (calculate_cluster_sizes 10 3 (1/20)).1 ∧
    (calculate_cluster_sizes 10 3 (1/20)).1
      ≤ (calculate_cluster_sizes 10 3 (1/20)).2.2 :=
  ⟨by
    have h1 : ⌈(10:ℚ) / (3:ℚ)⌉ = (4:ℤ) := by
      rw [Int.ceil_eq_iff]; norm_num
    norm_num [calculate_cluster_sizes, Int.floor_eq_iff, Int.ceil_eq_iff, h1],
   (planner_sizes_C3 10 3 (1/20) (by norm_num) (by norm_num) (by norm_num)).2⟩

/-- C10: both endpoints of the tolerance band are computed by int(), which
truncates toward zero, so for a tolerance in [0, 1] both endpoints are
floors; in particular targetCount 7 with tolerance 0.1 gives the integer band
[6, 7], the upper endpoint being the floor, not the ceiling, of 7.7. -/
theorem band_truncation_C10 :
    (∀ (total : ℕ) (tol : ℚ), 0 ≤ tol → tol ≤ 1 →
       bandMin total tol = ⌊(total : ℚ) * (1 - tol)⌋ ∧
       bandMax total tol = ⌊(total : ℚ) * (1 + tol)⌋) ∧
    bandMin 7 (1/10) = 6 ∧ bandMax 7 (1/10) = 7 ∧
    bandMax 7 (1/10) ≠ ⌈(7 : ℚ) * (1 + 1/10)⌉ := by
  have hgen : ∀ (total : ℕ) (tol : ℚ), 0 ≤ tol → tol ≤ 1 →
      bandMin total tol = ⌊(total : ℚ) * (1 - tol)⌋ ∧
      bandMax total tol = ⌊(total : ℚ) * (1 + tol)⌋ := by
    intro total tol h0 h1
    have hm : (0:ℚ) ≤ (total : ℚ) * (1 - tol) := by
      have : (0:ℚ) ≤ (total : ℚ) := by positivity
      nlinarith
    have hp : (0:ℚ) ≤ (total : ℚ) * (1 + tol) := by
      have : (0:ℚ) ≤ (total : ℚ) := by positivity
      nlinarith
    exact ⟨by simp [bandMin, pyInt, hm], by simp [bandMax, pyInt, hp]⟩
  refine ⟨hgen, ?_, ?_, ?_⟩
  · rw [(hgen 7 (1/10) (by norm_num) (by norm_num)).1]
    rw [Int.floor_eq_iff]; norm_num
  · rw [(hgen 7 (1/10) (by norm_num) (by norm_num)).2]
    rw [Int.floor_eq_iff]; norm_num
  · rw [(hgen 7 (1/10) (by norm_num) (by norm_num)).2]
    have h1 : ⌊(7:ℚ) * (1 + 1/10)⌋ = (7:ℤ) := by
      rw [Int.floor_eq_iff]; norm_num
    have h2 : ⌈(7:ℚ) * (1 + 1/10)⌉ = (8:ℤ) := by
      rw [Int.ceil_eq_iff]; norm_num
    have h3 : ((7:ℕ) : ℚ) = (7:ℚ) := by norm_num
    rw [h3, h1, h2]; norm_num

/-- Witness for C10: the truncation fact applied at targetCount 7 and
tolerance 0.1. -/
theorem band_truncation_C10_witness :
    bandMin 7 (1/10) = ⌊((7:ℕ) : ℚ) * (1 - 1/10)⌋ ∧
    bandMax 7 (1/10) = ⌊((7:ℕ) : ℚ) * (1 + 1/10)⌋ :=
  band_truncation_C10.1 7 (1/10) (by norm_num) (by norm_num)

/-- C7: with equal-length inputs, the assembler returns one record per input
point in input order, each carrying that point coordinates, its assigned
label, and a population count equal to the number of points sharing that
label. -/
theorem assemble_records_C7 (coords : List Pt) (labels : List ℤ)
    (h : coords.length = labels.length) :
    (getClusters coords labels).length = coords.length ∧
    ∀ (i : ℕ) (h1 : i < (getClusters coords labels).length)
      (h2 : i < coords.length) (h3 : i < labels.length),
      (getClusters coords labels).get ⟨i, h1⟩ =
        { coordinates := [(coords.get ⟨i, h2⟩).x, (coords.get ⟨i, h2⟩).y]
          cluster := labels.get ⟨i, h3⟩
          numOfBuildings := labels.count (labels.get ⟨i, h3⟩) } := by
  constructor
  · simp [getClusters, h]
  · intro i h1 h2 h3
    simp [getClusters, List.get_eq_getElem, List.getElem_map, List.getElem_zip]

/-- Witness for C7 at the instance of the claim: points (0,0), (1,1), (2,2)
with labels 1, 1, 2 give three records whose populations are 2, 2, 1 and
whose coordinates appear in input order. -/
theorem assemble_records_C7_witness :
    (getClusters [⟨0, 0⟩, ⟨1, 1⟩, ⟨2, 2⟩] [1, 1, 2]).length = 3 ∧
    (getClusters [⟨0, 0⟩, ⟨1, 1⟩, ⟨2, 2⟩] [1, 1, 2]).map
        (fun r => r.numOfBuildings) = [2, 2, 1] ∧
    (getClusters [⟨0, 0⟩, ⟨1, 1⟩, ⟨2, 2⟩] [1, 1, 2]).map
        (fun r => r.coordinates) = [[0, 0], [1, 1], [2, 2]] := by
  refine ⟨?_, by decide, by decide⟩
  have h := (assemble_records_C7 [⟨0, 0⟩, ⟨1, 1⟩, ⟨2, 2⟩] [1, 1, 2] rfl).1
  simpa using h

/-- Counterexample to C8: called with two points but one label, the assembler
does not fail; it returns a record list built from the mismatched inputs,
silently truncated by zip to the shorter length. -/
theorem assemble_mismatch_C8_cex :
    getClusters [⟨0, 0⟩, ⟨1, 1⟩] [1]
      = [{ coordinates := [0, 0], cluster := 1, numOfBuildings := 1 }] := by
  decide

/-- C8 amended: the assembler never checks the caller contract; on mismatched
lengths it silently truncates to the shorter input, returning
min(len(points), len(labels)) records instead of failing. -/
theorem assemble_mismatch_C8_amended (coords : List Pt) (labels : List ℤ) :
    (getClusters coords labels).length = min coords.length labels.length := by
  simp [getClusters]

/-! ### Loop lemmas for the radius search engine -/

lemma expandLoop_guard_false (fetch : ℚ → List Building) (minB : ℤ) (maxD : ℚ)
    (f : ℕ) (d : ℚ) (c : ℕ) (h : ¬((c : ℤ) < minB ∧ d < maxD)) :
    expandLoop fetch minB maxD f d c = (d, c) := by
  cases f with
  | zero => rfl
  | succ f => simp [expandLoop, h]

lemma expandLoop_step (fetch : ℚ → List Building) (minB : ℤ) (maxD : ℚ)
    (f : ℕ) (d : ℚ) (c : ℕ) (h : (c : ℤ) < minB ∧ d < maxD) :
    expandLoop fetch minB maxD (f + 1) d c
      = expandLoop fetch minB maxD f (min (d * (3 / 2)) maxD)
          (fetch (min (d * (3 / 2)) maxD)).length := by
  simp [expandLoop, h]

lemma expandLoop_cnt (fetch : ℚ → List Building) (minB : ℤ) (maxD : ℚ) :
    ∀ (f : ℕ) (d : ℚ),
      (expandLoop fetch minB maxD f d (fetch d).length).2
        = (fetch ((expandLoop fetch minB maxD f d (fetch d).length).1)).length := by
  intro f
  induction f with
  | zero => intro d; rfl
  | succ f ih =>
    intro d
    by_cases h : (((fetch d).length : ℕ) : ℤ) < minB ∧ d < maxD
    · rw [expandLoop_step fetch minB maxD f d _ h]; exact ih _
    · rw [expandLoop_guard_false fetch minB maxD (f + 1) d _ h]

lemma expandLoop_delta_le (fetch : ℚ → List Building) (minB : ℤ) (maxD : ℚ) :
    ∀ (f : ℕ) (d : ℚ) (c : ℕ), d ≤ maxD →
      (expandLoop fetch minB maxD f d c).1 ≤ maxD := by
  intro f
  induction f with
  | zero => intro d c h; exact h
  | succ f ih =>
    intro d c h
    by_cases hg : (c : ℤ) < minB ∧ d < maxD
    · rw [expandLoop_step fetch minB maxD f d c hg]
      exact ih _ _ (min_le_right _ _)
    · rw [expandLoop_guard_false fetch minB maxD (f + 1) d c hg]; exact h

lemma expandLoop_complete_stable (fetch : ℚ → List Building) (minB : ℤ)
    (maxD : ℚ) :
    ∀ (j m : ℕ) (d : ℚ) (c : ℕ),
      ¬(((expandLoop fetch minB maxD j d c).2 : ℤ) < minB ∧
          (expandLoop fetch minB maxD j d c).1 < maxD) →
      expandLoop fetch minB maxD (j + m) d c = expandLoop fetch minB maxD j d c := by
  intro j
  induction j with
  | zero =>
    intro m d c h
    simp only [expandLoop] at h
    rw [Nat.zero_add, expandLoop_guard_false fetch minB maxD m d c h]
    rfl
  | succ j ih =>
    intro m d c h
    by_cases hg : (c : ℤ) < minB ∧ d < maxD
    · rw [expandLoop_step fetch minB maxD j d c hg] at h
      have e : j + 1 + m = (j + m) + 1 := by omega
      rw [e, expandLoop_step fetch minB maxD (j + m) d c hg,
          expandLoop_step fetch minB maxD j d c hg]
      exact ih m _ _ h
    · rw [expandLoop_guard_false fetch minB maxD (j + 1 + m) d c hg,
          expandLoop_guard_false fetch minB maxD (j + 1) d c hg]

lemma expandLoop_completes (fetch : ℚ → List Building) (minB : ℤ) (q : ℚ)
    (hq : 0 < q) (c : ℕ) :
    ¬(((expandLoop fetch minB (10 * q) 4 (2 * q) c).2 : ℤ) < minB ∧
        (expandLoop fetch minB (10 * q) 4 (2 * q) c).1 < 10 * q) := by
  have e1 : min (2 * q * (3 / 2)) (10 * q) = 3 * q := by
    rw [show (2 : ℚ) * q * (3 / 2) = 3 * q by ring]
    exact min_eq_left (by nlinarith)
  have e2 : min (3 * q * (3 / 2)) (10 * q) = 9 / 2 * q := by
    rw [show (3 : ℚ) * q * (3 / 2) = 9 / 2 * q by ring]
    exact min_eq_left (by nlinarith)
  have e3 : min (9 / 2 * q * (3 / 2)) (10 * q) = 27 / 4 * q := by
    rw [show (9 : ℚ) / 2 * q * (3 / 2) = 27 / 4 * q by ring]
    exact min_eq_left (by nlinarith)
  have e4 : min (27 / 4 * q * (3 / 2)) (10 * q) = 10 * q := by
    rw [show (27 : ℚ) / 4 * q * (3 / 2) = 81 / 8 * q by ring]
    exact min_eq_right (by nlinarith)
  by_cases g1 : (c : ℤ) < minB ∧ 2 * q < 10 * q
  · rw [show (4 : ℕ) = 3 + 1 from rfl, expandLoop_step fetch minB (10 * q) 3 _ _ g1, e1]
    by_cases g2 : (((fetch (3 * q)).length : ℕ) : ℤ) < minB ∧ 3 * q < 10 * q
    · rw [show (3 : ℕ) = 2 + 1 from rfl, expandLoop_step fetch minB (10 * q) 2 _ _ g2, e2]
      by_cases g3 : (((fetch (9 / 2 * q)).length : ℕ) : ℤ) < minB ∧ 9 / 2 * q < 10 * q
      · rw [show (2 : ℕ) = 1 + 1 from rfl, expandLoop_step fetch minB (10 * q) 1 _ _ g3, e3]
        by_cases g4 : (((fetch (27 / 4 * q)).length : ℕ) : ℤ) < minB ∧ 27 / 4 * q < 10 * q
        · rw [expandLoop_step fetch minB (10 * q) 0 _ _ g4, e4]
          simp [expandLoop]
        · rw [expandLoop_guard_false fetch minB (10 * q) 1 _ _ g4]
          exact g4
      · rw [expandLoop_guard_false fetch minB (10 * q) 2 _ _ g3]; exact g3
    · rw [expandLoop_guard_false fetch minB (10 * q) 3 _ _ g2]; exact g2
  · rw [expandLoop_guard_false fetch minB (10 * q) 4 _ _ g1]; exact g1

lemma bisectLoop_guard_false (fetch : ℚ → List Building) (minB : ℤ) (prec : ℚ)
    (f : ℕ) (l r : ℚ) (h : ¬(prec < r - l)) :
    bisectLoop fetch minB prec f l r = (l, r) := by
  cases f with
  | zero => rfl
  | succ f => simp [bisectLoop, h]

lemma bisectLoop_step_right (fetch : ℚ → List Building) (minB : ℤ) (prec : ℚ)
    (f : ℕ) (l r : ℚ) (h : prec < r - l)
    (hc : minB ≤ (((fetch ((l + r) / 2)).length : ℕ) : ℤ)) :
    bisectLoop fetch minB prec (f + 1) l r
      = bisectLoop fetch minB prec f l ((l + r) / 2) := by
  simp [bisectLoop, h, hc]

lemma bisectLoop_step_left (fetch : ℚ → List Building) (minB : ℤ) (prec : ℚ)
    (f : ℕ) (l r : ℚ) (h : prec < r - l)
    (hc : ¬(minB ≤ (((fetch ((l + r) / 2)).length : ℕ) : ℤ))) :
    bisectLoop fetch minB prec (f + 1) l r
      = bisectLoop fetch minB prec f ((l + r) / 2) r := by
  simp [bisectLoop, h, hc]

lemma bisectLoop_stable (fetch : ℚ → List Building) (minB : ℤ) (prec : ℚ) :
    ∀ (n m : ℕ) (l r : ℚ), r - l ≤ 2 ^ n * prec →
      bisectLoop fetch minB prec (n + m) l r = bisectLoop fetch minB prec n l r := by
  intro n
  induction n with
  | zero =>
    intro m l r h
    have h1 : r - l ≤ prec := by simpa using h
    rw [Nat.zero_add, bisectLoop_guard_false fetch minB prec m l r (not_lt.mpr h1)]
    rfl
  | succ n ih =>
    intro m l r h
    by_cases hg : prec < r - l
    · have hw : r - l ≤ 2 ^ n * prec * 2 := by
        rw [pow_succ] at h; linarith
      have e : n + 1 + m = (n + m) + 1 := by omega
      by_cases hc : minB ≤ (((fetch ((l + r) / 2)).length : ℕ) : ℤ)
      · rw [e, bisectLoop_step_right fetch minB prec (n + m) l r hg hc,
            bisectLoop_step_right fetch minB prec n l r hg hc]
        exact ih m l ((l + r) / 2) (by linarith)
      · rw [e, bisectLoop_step_left fetch minB prec (n + m) l r hg hc,
            bisectLoop_step_left fetch minB prec n l r hg hc]
        exact ih m ((l + r) / 2) r (by linarith)
    · rw [bisectLoop_guard_false fetch minB prec (n + 1 + m) l r hg,
          bisectLoop_guard_false fetch minB prec (n + 1) l r hg]

lemma bisectLoop_width (fetch : ℚ → List Building) (minB : ℤ) (prec : ℚ) :
    ∀ (n : ℕ) (l r : ℚ), r - l ≤ 2 ^ n * prec →
      (bisectLoop fetch minB prec n l r).2 - (bisectLoop fetch minB prec n l r).1
        ≤ prec := by
  intro n
  induction n with
  | zero =>
    intro l r h
    simp only [bisectLoop]
    simpa using h
  | succ n ih =>
    intro l r h
    by_cases hg : prec < r - l
    · have hw : r - l ≤ 2 ^ n * prec * 2 := by
        rw [pow_succ] at h; linarith
      by_cases hc : minB ≤ (((fetch ((l + r) / 2)).length : ℕ) : ℤ)
      · rw [bisectLoop_step_right fetch minB prec n l r hg hc]
        exact ih l ((l + r) / 2) (by linarith)
      · rw [bisectLoop_step_left fetch minB prec n l r hg hc]
        exact ih ((l + r) / 2) r (by linarith)
    · rw [bisectLoop_guard_false fetch minB prec (n + 1) l r hg]
      simpa using not_lt.mp hg

lemma bisectLoop_count (fetch : ℚ → List Building) (minB : ℤ) (prec : ℚ) :
    ∀ (f : ℕ) (l r : ℚ), minB ≤ ((fetch r).length : ℤ) →
      minB ≤ ((fetch ((bisectLoop fetch minB prec f l r).2)).length : ℤ) := by
  intro f
  induction f with
  | zero => intro l r h; simpa [bisectLoop] using h
  | succ f ih =>
    intro l r h
    by_cases hg : prec < r - l
    · by_cases hc : minB ≤ (((fetch ((l + r) / 2)).length : ℕ) : ℤ)
      · rw [bisectLoop_step_right fetch minB prec f l r hg hc]; exact ih _ _ hc
      · rw [bisectLoop_step_left fetch minB prec f l r hg hc]; exact ih _ _ h
    · rw [bisectLoop_guard_false fetch minB prec (f + 1) l r hg]; simpa using h

lemma length_insertByDist (b : Building) (bs : List Building) :
    (insertByDist b bs).length = bs.length + 1 := by
  induction bs with
  | nil => rfl
  | cons c cs ih =>
    by_cases h : b.dist ≤ c.dist <;> simp [insertByDist, h, ih]

lemma length_sortByDist (bs : List Building) :
    (sortByDist bs).length = bs.length := by
  induction bs with
  | nil => rfl
  | cons b bs ih => simp [sortByDist, length_insertByDist, ih]

lemma bandMin_nonneg (total : ℕ) (tol : ℚ) (h0 : 0 ≤ tol) (h1 : tol ≤ 1) :
    0 ≤ bandMin total tol := by
  have hx : (0 : ℚ) ≤ (total : ℚ) * (1 - tol) := by
    have ht : (0 : ℚ) ≤ (total : ℚ) := by positivity
    nlinarith
  unfold bandMin pyInt
  rw [if_pos hx]
  exact Int.floor_nonneg.mpr hx

lemma bandMax_nonneg (total : ℕ) (tol : ℚ) (h0 : 0 ≤ tol) :
    0 ≤ bandMax total tol := by
  have hx : (0 : ℚ) ≤ (total : ℚ) * (1 + tol) := by
    have ht : (0 : ℚ) ≤ (total : ℚ) := by positivity
    nlinarith
  unfold bandMax pyInt
  rw [if_pos hx]
  exact Int.floor_nonneg.mpr hx

lemma bandMin_le_bandMax (total : ℕ) (tol : ℚ) (h0 : 0 ≤ tol) (h1 : tol ≤ 1) :
    bandMin total tol ≤ bandMax total tol := by
  have ht : (0 : ℚ) ≤ (total : ℚ) := by positivity
  have hm : (0 : ℚ) ≤ (total : ℚ) * (1 - tol) := by nlinarith
  have hp : (0 : ℚ) ≤ (total : ℚ) * (1 + tol) := by nlinarith
  unfold bandMin bandMax pyInt
  rw [if_pos hm, if_pos hp]
  exact Int.floor_le_floor (by nlinarith)

/-- C9: the expansion loop stabilizes within 4 iterations (well under the
claimed about 6): any fuel at least 4 gives the same result, because the
radius
reaches the 10 km cap after at most four 1.5x growth steps; and on any
interval no wider than the 8 km equivalent the bisection loop stabilizes
within 7 iterations, its final interval width being at most the strictly
positive 0.1 km equivalent precision q / 10 (q positive encodes a pin
latitude strictly between -90 and 90 degrees). -/
theorem loops_terminate_C9 :
    (∀ (fetch : ℚ → List Building) (minB : ℤ) (q : ℚ) (c : ℕ) (f : ℕ),
       0 < q → 4 ≤ f →
       expandLoop fetch minB (10 * q) f (2 * q) c
         = expandLoop fetch minB (10 * q) 4 (2 * q) c) ∧
    (∀ (fetch : ℚ → List Building) (minB : ℤ) (q l r : ℚ) (f : ℕ),
       0 < q → r - l ≤ 8 * q → 7 ≤ f →
       bisectLoop fetch minB (q / 10) f l r = bisectLoop fetch minB (q / 10) 7 l r ∧
       (bisectLoop fetch minB (q / 10) 7 l r).2
         - (bisectLoop fetch minB (q / 10) 7 l r).1 ≤ q / 10) := by
  constructor
  · intro fetch minB q c f hq hf
    obtain ⟨k, rfl⟩ : ∃ k, f = 4 + k := ⟨f - 4, by omega⟩
    exact expandLoop_complete_stable fetch minB (10 * q) 4 k (2 * q) c
      (expandLoop_completes fetch minB q hq c)
  · intro fetch minB q l r f hq hw hf
    have h7 : r - l ≤ 2 ^ 7 * (q / 10) := by
      have : (2 : ℚ) ^ 7 * (q / 10) = 64 / 5 * q := by ring
      rw [this]; linarith
    obtain ⟨k, rfl⟩ : ∃ k, f = 7 + k := ⟨f - 7, by omega⟩
    exact ⟨bisectLoop_stable fetch minB (q / 10) 7 k l r h7,
           bisectLoop_width fetch minB (q / 10) 7 l r h7⟩

/-- Witness for C9 at a concrete oracle and pin factor. -/
theorem loops_terminate_C9_witness :
    (expandLoop (fun _ => []) 0 (10 * 1) 5 (2 * 1) 0
       = expandLoop (fun _ => []) 0 (10 * 1) 4 (2 * 1) 0) ∧
    (bisectLoop (fun _ => []) 0 (1 / 10) 8 2 9
       = bisectLoop (fun _ => []) 0 (1 / 10) 7 2 9 ∧
     (bisectLoop (fun _ => []) 0 (1 / 10) 7 2 9).2
       - (bisectLoop (fun _ => []) 0 (1 / 10) 7 2 9).1 ≤ 1 / 10) := by
  constructor
  · exact loops_terminate_C9.1 (fun _ => []) 0 1 0 5 (by norm_num) (by norm_num)
  · have h := loops_terminate_C9.2 (fun _ => []) 0 1 2 9 8 (by norm_num)
      (by norm_num) (by norm_num)
    simpa using h

lemma expandPhase_cnt (fetch : ℚ → List Building) (q : ℚ) (total : ℕ) (tol : ℚ) :
    (expandPhase fetch q total tol).2
      = (fetch ((expandPhase fetch q total tol).1)).length :=
  expandLoop_cnt fetch (bandMin total tol) (10 * q) 100 (2 * q)

/-- C1: when the expansion phase ends with a count at least the lower bound
of the band (the 10 km cap was not hit while still short of the band), the
returned point set size lies in the integer tolerance band
[int(targetCount*(1-tolerance)), int(targetCount*(1+tolerance))]; when the
cap is hit with the count still below the lower bound, the engine returns the
whole best-effort point set, whose size is that sub-threshold count, without
raising any error. -/
theorem radius_band_C1 (fetch : ℚ → List Building) (q : ℚ) (total : ℕ)
    (tol : ℚ) (h0 : 0 ≤ tol) (h1 : tol < 1) :
    (bandMin total tol ≤ ((expandPhase fetch q total tol).2 : ℤ) →
       bandMin total tol ≤ ((getBuildingsAroundPin fetch q total tol).length : ℤ) ∧
       ((getBuildingsAroundPin fetch q total tol).length : ℤ) ≤ bandMax total tol) ∧
    (((expandPhase fetch q total tol).2 : ℤ) < bandMin total tol →
       (getBuildingsAroundPin fetch q total tol).length
         = (expandPhase fetch q total tol).2) := by
  have h1' : tol ≤ 1 := le_of_lt h1
  have hmm := bandMin_le_bandMax total tol h0 h1'
  have hM0 := bandMax_nonneg total tol h0
  have hcnt := expandPhase_cnt fetch q total tol
  constructor
  · intro hcap
    have hcond : ¬(((expandPhase fetch q total tol).2 : ℤ) < bandMin total tol) :=
      not_lt.mpr hcap
    have hR : bandMin total tol ≤
        ((fetch ((bisectLoop fetch (bandMin total tol) (q / 10) 100 (2 * q)
            (expandPhase fetch q total tol).1).2)).length : ℤ) := by
      apply bisectLoop_count
      rw [← hcnt]; exact hcap
    simp only [getBuildingsAroundPin, hcond, if_false]
    set R := (bisectLoop fetch (bandMin total tol) (q / 10) 100 (2 * q)
        (expandPhase fetch q total tol).1).2 with hRdef
    have hlen : ((sortByDist (fetch R)).take (bandMax total tol).toNat).length
        = min (bandMax total tol).toNat (fetch R).length := by
      rw [List.length_take, length_sortByDist]
    have hcast : (((bandMax total tol).toNat : ℕ) : ℤ) = bandMax total tol :=
      Int.toNat_of_nonneg hM0
    have hlow : bandMin total tol ≤
        ((((sortByDist (fetch R)).take (bandMax total tol).toNat).length : ℕ) : ℤ) := by
      rw [hlen]
      push_cast [Nat.cast_min]
      refine le_min ?_ ?_
      · rw [hcast]; exact hmm
      · exact hR
    have hhigh : ((((sortByDist (fetch R)).take
        (bandMax total tol).toNat).length : ℕ) : ℤ) ≤ bandMax total tol := by
      rw [hlen]
      push_cast [Nat.cast_min]
      exact le_trans (min_le_left _ _) (le_of_eq hcast)
    rw [if_neg (not_lt.mpr hhigh)]
    exact ⟨hlow, hhigh⟩
  · intro hcond
    have hlen : (sortByDist (fetch ((expandPhase fetch q total tol).1))).length
        = (expandPhase fetch q total tol).2 := by
      rw [length_sortByDist, ← hcnt]
    have hno : ¬(bandMax total tol <
        ((sortByDist (fetch ((expandPhase fetch q total tol).1))).length : ℤ)) := by
      rw [hlen]
      exact not_lt.mpr (le_trans (le_of_lt hcond) hmm)
    simp only [getBuildingsAroundPin, hcond, if_true]
    rw [if_neg hno]
    exact hlen

/-- Witness for C1 at the instance of the claim: targetCount 100, tolerance
0.1, so the band is [90, 110], and the returned size lies inside it. -/
theorem radius_band_C1_witness :
    bandMin 100 (1 / 10) = 90 ∧ bandMax 100 (1 / 10) = 110 ∧
    (90 : ℤ) ≤ ((getBuildingsAroundPin fetchC1 1 100 (1 / 10)).length : ℤ) ∧
    ((getBuildingsAroundPin fetchC1 1 100 (1 / 10)).length : ℤ) ≤ 110 := by
  have hb1 : bandMin 100 (1 / 10) = 90 := by with_unfolding_all decide
  have hb2 : bandMax 100 (1 / 10) = 110 := by with_unfolding_all decide
  have hcap : bandMin 100 (1 / 10) ≤ ((expandPhase fetchC1 1 100 (1 / 10)).2 : ℤ) := by
    with_unfolding_all decide
  have h := (radius_band_C1 fetchC1 1 100 (1 / 10) (by norm_num) (by norm_num)).1 hcap
  exact ⟨hb1, hb2, hb1 ▸ h.1, hb2 ▸ h.2⟩

lemma expandPhase_eq (fetch : ℚ → List Building) (q : ℚ) (total : ℕ) (tol : ℚ) :
    expandPhase fetch q total tol
      = expandLoop fetch (bandMin total tol) (10 * q) 100 (2 * q)
          (fetch (2 * q)).length := rfl

/-- C4 amended: the bisection interval starts at the INITIAL radius (the 2 km
equivalent), not at the last sub-threshold radius of the expansion phase; its
upper endpoint is the radius the expansion ended at; the loop stops once the
interval width is at most the 0.1 km equivalent precision; the engine then
re-queries once at the final radius, whose count satisfies the lower bound,
sorts by distance, and truncates to at most the upper bound of the band. -/
theorem bisection_C4_amended (fetch : ℚ → List Building) (q : ℚ) (total : ℕ)
    (tol : ℚ) (L R : ℚ) (hq : 0 < q) (h0 : 0 ≤ tol) (h1 : tol < 1)
    (hcap : bandMin total tol ≤ ((expandPhase fetch q total tol).2 : ℤ))
    (hLR : (L, R) = bisectLoop fetch (bandMin total tol) (q / 10) 100 (2 * q)
        (expandPhase fetch q total tol).1) :
    R - L ≤ q / 10 ∧
    bandMin total tol ≤ ((fetch R).length : ℤ) ∧
    getBuildingsAroundPin fetch q total tol
      = (sortByDist (fetch R)).take (bandMax total tol).toNat := by
  have h1' : tol ≤ 1 := le_of_lt h1
  have hmm := bandMin_le_bandMax total tol h0 h1'
  have hM0 := bandMax_nonneg total tol h0
  have hcnt := expandPhase_cnt fetch q total tol
  have hL : L = (bisectLoop fetch (bandMin total tol) (q / 10) 100 (2 * q)
      (expandPhase fetch q total tol).1).1 := by rw [← hLR]
  have hR : R = (bisectLoop fetch (bandMin total tol) (q / 10) 100 (2 * q)
      (expandPhase fetch q total tol).1).2 := by rw [← hLR]
  have hs1 : (expandPhase fetch q total tol).1 ≤ 10 * q := by
    rw [expandPhase_eq]
    exact expandLoop_delta_le fetch (bandMin total tol) (10 * q) 100 (2 * q) _
      (by linarith)
  have hw0 : (expandPhase fetch q total tol).1 - 2 * q ≤ 2 ^ 100 * (q / 10) := by
    have h8 : (8 : ℚ) * q ≤ 2 ^ 100 * (q / 10) := by
      have e : (2 : ℚ) ^ 100 * (q / 10) = (2 ^ 100 / 10) * q := by ring
      rw [e]
      have hc : (8 : ℚ) ≤ 2 ^ 100 / 10 := by norm_num
      nlinarith
    linarith
  refine ⟨?_, ?_, ?_⟩
  · rw [hL, hR]
    exact bisectLoop_width fetch (bandMin total tol) (q / 10) 100 (2 * q) _ hw0
  · rw [hR]
    apply bisectLoop_count
    rw [← hcnt]; exact hcap
  · have hcond : ¬(((expandPhase fetch q total tol).2 : ℤ) < bandMin total tol) :=
      not_lt.mpr hcap
    have hRc : bandMin total tol ≤
        ((fetch ((bisectLoop fetch (bandMin total tol) (q / 10) 100 (2 * q)
            (expandPhase fetch q total tol).1).2)).length : ℤ) := by
      apply bisectLoop_count
      rw [← hcnt]; exact hcap
    have hcast : (((bandMax total tol).toNat : ℕ) : ℤ) = bandMax total tol :=
      Int.toNat_of_nonneg hM0
    have hhigh : ((((sortByDist (fetch ((bisectLoop fetch (bandMin total tol)
        (q / 10) 100 (2 * q) (expandPhase fetch q total tol).1).2))).take
        (bandMax total tol).toNat).length : ℕ) : ℤ) ≤ bandMax total tol := by
      rw [List.length_take, length_sortByDist]
      push_cast [Nat.cast_min]
      exact le_trans (min_le_left _ _) (le_of_eq hcast)
    rw [hR]
    simp only [getBuildingsAroundPin, hcond, if_false]
    rw [if_neg (not_lt.mpr hhigh)]

/-- Counterexample to C4: with this oracle and targetCount 10, tolerance 0,
the expansion probes radii 2, 3, 4.5, so the last sub-threshold radius is 3;
the source code instead starts the bisection at the initial radius 2, and the
two intervals converge to different final radii, yielding different returned
point sets; the claimed engine and the actual engine disagree. -/
theorem bisection_C4_cex :
    (expandPhaseLastSub fetchC4 1 10 0).2.2 = 3 ∧
    getBuildingsAroundPin fetchC4 1 10 0
      ≠ getBuildingsAroundPinClaimC4 fetchC4 1 10 0 := by
  with_unfolding_all decide

/-! ### Lemmas for the recursive hierarchical splitter -/

lemma insertSorted_perm (x : ℤ) (l : List ℤ) :
    List.Perm (insertSorted x l) (x :: l) := by
  induction l with
  | nil => exact List.Perm.refl _
  | cons y ys ih =>
    by_cases h : x ≤ y
    · simp [insertSorted, h]
    · simp only [insertSorted, if_neg h]
      exact List.Perm.trans (List.Perm.cons y ih) (List.Perm.swap x y ys)

lemma foldr_insertSorted_perm :
    ∀ l : List ℤ, List.Perm (l.foldr insertSorted []) l := by
  intro l
  induction l with
  | nil => exact List.Perm.refl _
  | cons x xs ih =>
    simp only [List.foldr_cons]
    exact List.Perm.trans (insertSorted_perm _ _) (List.Perm.cons x ih)

lemma dedupSort_perm (ls : List ℤ) : List.Perm (dedupSort ls) ls.dedup :=
  foldr_insertSorted_perm ls.dedup

lemma mem_dedupSort (x : ℤ) (ls : List ℤ) : x ∈ dedupSort ls ↔ x ∈ ls := by
  rw [(dedupSort_perm ls).mem_iff, List.mem_dedup]

lemma nodup_dedupSort (ls : List ℤ) : (dedupSort ls).Nodup :=
  (dedupSort_perm ls).nodup_iff.mpr ls.nodup_dedup

lemma maskFilter_nil {α : Type} (mask : List Bool) :
    maskFilter ([] : List α) mask = [] := by
  simp [maskFilter]

lemma maskFilter_cons_false {α : Type} (x : α) (xs : List α) (ms : List Bool) :
    maskFilter (x :: xs) (false :: ms) = maskFilter xs ms := by
  simp [maskFilter]

lemma maskFilter_cons_true {α : Type} (x : α) (xs : List α) (ms : List Bool) :
    maskFilter (x :: xs) (true :: ms) = x :: maskFilter xs ms := by
  simp [maskFilter]

lemma splice_length :
    ∀ (base : List ℤ) (mask : List Bool) (vs nl : List ℤ),
      splice base mask vs = some nl → nl.length = base.length := by
  intro base
  induction base with
  | nil =>
    intro mask vs nl h
    cases mask with
    | nil =>
      cases vs with
      | nil =>
        simp only [splice, Option.some_inj] at h
        subst h; rfl
      | cons v vs => simp [splice] at h
    | cons m ms => simp [splice] at h
  | cons b bs ih =>
    intro mask vs nl h
    cases mask with
    | nil => simp [splice] at h
    | cons m ms =>
      cases m with
      | false =>
        simp only [splice, Option.map_eq_some'] at h
        obtain ⟨t, ht, rfl⟩ := h
        simp [ih ms vs t ht]
      | true =>
        cases vs with
        | nil => simp [splice] at h
        | cons v vs2 =>
          simp only [splice, Option.map_eq_some'] at h
          obtain ⟨t, ht, rfl⟩ := h
          simp [ih ms vs2 t ht]

lemma splice_mem :
    ∀ (base : List ℤ) (mask : List Bool) (vs nl : List ℤ),
      splice base mask vs = some nl → ∀ x ∈ nl, x ∈ base ∨ x ∈ vs := by
  intro base
  induction base with
  | nil =>
    intro mask vs nl h x hx
    cases mask with
    | nil =>
      cases vs with
      | nil =>
        simp only [splice, Option.some_inj] at h
        subst h; simp at hx
      | cons v vs => simp [splice] at h
    | cons m ms => simp [splice] at h
  | cons b bs ih =>
    intro mask vs nl h x hx
    cases mask with
    | nil => simp [splice] at h
    | cons m ms =>
      cases m with
      | false =>
        simp only [splice, Option.map_eq_some'] at h
        obtain ⟨t, ht, rfl⟩ := h
        rcases List.mem_cons.mp hx with h1 | h2
        · exact Or.inl (by simp [h1])
        · rcases ih ms vs t ht x h2 with h3 | h3
          · exact Or.inl (by simp [h3])
          · exact Or.inr h3
      | true =>
        cases vs with
        | nil => simp [splice] at h
        | cons v vs2 =>
          simp only [splice, Option.map_eq_some'] at h
          obtain ⟨t, ht, rfl⟩ := h
          rcases List.mem_cons.mp hx with h1 | h2
          · exact Or.inr (by simp [h1])
          · rcases ih ms vs2 t ht x h2 with h3 | h3
            · exact Or.inl (by simp [h3])
            · exact Or.inr (by simp [h3])

lemma splice_count :
    ∀ (base : List ℤ) (mask : List Bool) (vs nl : List ℤ),
      splice base mask vs = some nl →
      ∀ l : ℤ, nl.count l + (maskFilter base mask).count l
        = base.count l + vs.count l := by
  intro base
  induction base with
  | nil =>
    intro mask vs nl h l
    cases mask with
    | nil =>
      cases vs with
      | nil =>
        simp only [splice, Option.some_inj] at h
        subst h
        simp [maskFilter_nil]
      | cons v vs => simp [splice] at h
    | cons m ms => simp [splice] at h
  | cons b bs ih =>
    intro mask vs nl h l
    cases mask with
    | nil => simp [splice] at h
    | cons m ms =>
      cases m with
      | false =>
        simp only [splice, Option.map_eq_some'] at h
        obtain ⟨t, ht, rfl⟩ := h
        have hcnt := ih ms vs t ht l
        rw [maskFilter_cons_false]
        simp only [List.count_cons]
        omega
      | true =>
        cases vs with
        | nil => simp [splice] at h
        | cons v vs2 =>
          simp only [splice, Option.map_eq_some'] at h
          obtain ⟨t, ht, rfl⟩ := h
          have hcnt := ih ms vs2 t ht l
          rw [maskFilter_cons_true]
          simp only [List.count_cons]
          omega

lemma splice_forall₂ {P : ℤ → ℤ → Prop} {R : ℤ → Prop} (cl : ℤ) :
    ∀ (labels base vs nl : List ℤ),
      splice base (labels.map (fun l => l == cl)) vs = some nl →
      List.Forall₂ P labels base →
      (∀ v ∈ vs, R v) →
      List.Forall₂ (fun lab v => (lab = cl ∧ R v) ∨ (lab ≠ cl ∧ P lab v))
        labels nl := by
  intro labels
  induction labels with
  | nil =>
    intro base vs nl h hf hv
    cases hf
    cases vs with
    | nil =>
      simp only [List.map_nil, splice, Option.some_inj] at h
      subst h
      exact List.Forall₂.nil
    | cons v vs => simp [splice] at h
  | cons lab labs ih =>
    intro base vs nl h hf hv
    cases hf with
    | cons hP hf2 =>
      by_cases hlab : lab = cl
      · have hm : (lab == cl) = true := beq_iff_eq.mpr hlab
        rw [List.map_cons, hm] at h
        cases vs with
        | nil => simp [splice] at h
        | cons v vs2 =>
          simp only [splice, Option.map_eq_some'] at h
          obtain ⟨t, ht, rfl⟩ := h
          exact List.Forall₂.cons (Or.inl ⟨hlab, hv v (by simp)⟩)
            (ih _ _ _ ht hf2 (fun x hx => hv x (by simp [hx])))
      · have hm : (lab == cl) = false := by simp [hlab]
        rw [List.map_cons, hm] at h
        simp only [splice, Option.map_eq_some'] at h
        obtain ⟨t, ht, rfl⟩ := h
        exact List.Forall₂.cons (Or.inr ⟨hlab, hP⟩) (ih _ _ _ ht hf2 hv)

lemma maskFilter_forall₂ {P : ℤ → ℤ → Prop} (cl : ℤ) :
    ∀ (labels base : List ℤ), List.Forall₂ P labels base →
      ∀ x ∈ maskFilter base (labels.map (fun l => l == cl)), P cl x := by
  intro labels
  induction labels with
  | nil =>
    intro base hf x hx
    cases hf
    simp [maskFilter_nil] at hx
  | cons lab labs ih =>
    intro base hf x hx
    cases hf with
    | cons hP hf2 =>
      by_cases hlab : lab = cl
      · have hm : (lab == cl) = true := beq_iff_eq.mpr hlab
        rw [List.map_cons, hm, maskFilter_cons_true] at hx
        rcases List.mem_cons.mp hx with h1 | h2
        · subst h1; exact hlab ▸ hP
        · exact ih _ hf2 _ h2
      · have hm : (lab == cl) = false := by simp [hlab]
        rw [List.map_cons, hm, maskFilter_cons_false] at hx
        exact ih _ hf2 _ hx

lemma assignMask_eq_splice (k : ℤ) :
    ∀ (base : List ℤ) (mask : List Bool), mask.length = base.length →
      splice base mask (List.replicate (mask.count true) k)
        = some (assignMask base mask k) := by
  intro base
  induction base with
  | nil =>
    intro mask h
    cases mask with
    | nil => simp [splice, assignMask]
    | cons m ms => simp at h
  | cons b bs ih =>
    intro mask h
    cases mask with
    | nil => simp at h
    | cons m ms =>
      have hlen : ms.length = bs.length := by simpa using h
      cases m with
      | false =>
        have e : (false :: ms).count true = ms.count true := by
          simp [List.count_cons]
        rw [e]
        simp only [splice, ih ms hlen, Option.map_some', Option.some_inj]
        simp [assignMask]
      | true =>
        have e : (true :: ms).count true = ms.count true + 1 := by
          simp [List.count_cons]
        rw [e, List.replicate_succ]
        simp only [splice, ih ms hlen, Option.map_some', Option.some_inj]
        simp [assignMask]

lemma count_true_mask (cl : ℤ) :
    ∀ labels : List ℤ, (labels.map (fun l => l == cl)).count true
      = labels.count cl := by
  intro labels
  induction labels with
  | nil => rfl
  | cons lab labs ih =>
    by_cases hlab : lab = cl <;>
      simp [List.count_cons, ih, hlab, beq_iff_eq]

lemma forall₂_replicate (P : ℤ → ℤ → Prop) :
    ∀ ls : List ℤ, (∀ a ∈ ls, P a 0) →
      List.Forall₂ P ls (List.replicate ls.length 0) := by
  intro ls
  induction ls with
  | nil => intro h; exact List.Forall₂.nil
  | cons x xs ih =>
    intro h
    simp only [List.length_cons, List.replicate_succ]
    exact List.Forall₂.cons (h x (by simp)) (ih (fun a ha => h a (by simp [ha])))

lemma forall₂_mem_right {P : ℤ → ℤ → Prop} :
    ∀ {as bs : List ℤ}, List.Forall₂ P as bs → ∀ b ∈ bs, ∃ a ∈ as, P a b := by
  intro as bs h
  induction h with
  | nil => intro b hb; simp at hb
  | cons hP hf ih =>
    intro b hb
    rcases List.mem_cons.mp hb with h1 | h2
    · subst h1; exact ⟨_, by simp, hP⟩
    · obtain ⟨a, ha, hab⟩ := ih b h2
      exact ⟨a, by simp [ha], hab⟩

lemma goGroups_spec (maxB : ℕ) (tv : ℚ)
    (recurse : List Pt → ℚ → ℕ → Option (List ℤ × ℕ))
    (coords : List Pt) (labels : List ℤ) (threshold : ℚ) (c0 : ℕ)
    (hrec : ∀ (cs : List Pt) (t : ℚ) (c : ℕ) (nl : List ℤ) (c2 : ℕ),
      1 ≤ c → recurse cs t c = some (nl, c2) →
      nl.length = cs.length ∧ c ≤ c2 ∧
      (∀ l ∈ nl, (c : ℤ) ≤ l ∧ l < (c2 : ℤ)) ∧
      (tv < 1 → ∀ l : ℤ, nl.count l ≤ maxB)) :
    ∀ (uniq newLabels : List ℤ) (counter : ℕ) (nl : List ℤ) (c2 : ℕ),
      uniq.Nodup → 1 ≤ c0 → c0 ≤ counter →
      newLabels.length = labels.length →
      (∀ l ∈ newLabels, l = 0 ∨ ((c0 : ℤ) ≤ l ∧ l < (counter : ℤ))) →
      (tv < 1 → ∀ l : ℤ, l ≠ 0 → newLabels.count l ≤ maxB) →
      List.Forall₂ (fun lab v => (lab ∈ uniq → v = 0) ∧ (lab ∉ uniq → 1 ≤ v))
        labels newLabels →
      goGroups maxB tv recurse coords labels threshold uniq newLabels counter
        = some (nl, c2) →
      nl.length = labels.length ∧ counter ≤ c2 ∧
      (∀ l ∈ nl, l = 0 ∨ ((c0 : ℤ) ≤ l ∧ l < (c2 : ℤ))) ∧
      (tv < 1 → ∀ l : ℤ, l ≠ 0 → nl.count l ≤ maxB) ∧
      List.Forall₂ (fun _ v => 1 ≤ v) labels nl := by
  intro uniq
  induction uniq with
  | nil =>
    intro newLabels counter nl c2 hnd h1c hcc hlen hI2 hI4 hI3 hrun
    simp only [goGroups, Option.some_inj, Prod.mk.injEq] at hrun
    obtain ⟨rfl, rfl⟩ := hrun
    exact ⟨hlen, le_refl _, hI2, hI4,
      hI3.imp (fun a b hab => hab.2 (List.not_mem_nil a))⟩
  | cons cl rest ih =>
    intro newLabels counter nl c2 hnd h1c hcc hlen hI2 hI4 hI3 hrun
    have hndr : rest.Nodup := (List.nodup_cons.mp hnd).2
    have hclr : cl ∉ rest := (List.nodup_cons.mp hnd).1
    have hmz : ∀ x ∈ maskFilter newLabels (labels.map (fun l => l == cl)),
        x = 0 := by
      intro x hx
      exact (maskFilter_forall₂ cl labels newLabels hI3 x hx).1
        (List.mem_cons_self cl rest)
    simp only [goGroups] at hrun
    by_cases hcond : maxB < labels.count cl ∧ tv < 1
    · rw [if_pos hcond] at hrun
      cases hr1 : recurse (maskFilter coords (labels.map (fun l => l == cl)))
          (threshold * tv) counter with
      | none =>
        simp only [hr1] at hrun
        exact Option.noConfusion hrun
      | some sc =>
        simp only [hr1] at hrun
        cases hs1 : splice newLabels (labels.map (fun l => l == cl)) sc.1 with
        | none =>
          simp only [hs1] at hrun
          exact Option.noConfusion hrun
        | some nl2 =>
          simp only [hs1] at hrun
          obtain ⟨hrlen, hrle, hrmem, hrcnt⟩ :=
            hrec _ _ _ sc.1 sc.2 (le_trans h1c hcc) (by rw [hr1])
          have hlen2 : nl2.length = labels.length :=
            (splice_length _ _ _ _ hs1).trans hlen
          have hcc2 : c0 ≤ sc.2 := le_trans hcc hrle
          have hI2n : ∀ l ∈ nl2, l = 0 ∨ ((c0 : ℤ) ≤ l ∧ l < (sc.2 : ℤ)) := by
            intro l hl
            rcases splice_mem _ _ _ _ hs1 l hl with hm | hm
            · rcases hI2 l hm with h0 | ⟨ha, hb⟩
              · exact Or.inl h0
              · exact Or.inr ⟨ha, lt_of_lt_of_le hb (by exact_mod_cast hrle)⟩
            · obtain ⟨ha, hb⟩ := hrmem l hm
              exact Or.inr ⟨le_trans (by exact_mod_cast hcc) ha, hb⟩
          have hI4n : tv < 1 → ∀ l : ℤ, l ≠ 0 → nl2.count l ≤ maxB := by
            intro htv l hl0
            have hid := splice_count _ _ _ _ hs1 l
            have hmf0 : (maskFilter newLabels
                (labels.map (fun l => l == cl))).count l = 0 := by
              rw [List.count_eq_zero]
              intro hmem
              exact hl0 (hmz l hmem)
            by_cases hlt : l < (counter : ℤ)
            · have hsub0 : sc.1.count l = 0 := by
                rw [List.count_eq_zero]
                intro hmem
                exact absurd (hrmem l hmem).1 (not_le.mpr hlt)
              have h4 := hI4 htv l hl0
              omega
            · have hnew0 : newLabels.count l = 0 := by
                rw [List.count_eq_zero]
                intro hmem
                rcases hI2 l hmem with h0 | ⟨ha, hb⟩
                · exact hl0 h0
                · exact absurd hb hlt
              have h4 := hrcnt htv l
              omega
          have hI3n : List.Forall₂
              (fun lab v => (lab ∈ rest → v = 0) ∧ (lab ∉ rest → 1 ≤ v))
              labels nl2 := by
            have hsf := splice_forall₂
              (P := fun lab v => (lab ∈ cl :: rest → v = 0) ∧
                (lab ∉ cl :: rest → 1 ≤ v))
              (R := fun v => (counter : ℤ) ≤ v)
              cl labels newLabels sc.1 nl2 hs1 hI3 (fun v hv => (hrmem v hv).1)
            refine hsf.imp ?_
            intro lab v hlv
            rcases hlv with ⟨hlab, hR⟩ | ⟨hlab, hP⟩
            · refine ⟨fun hm => absurd (hlab ▸ hm) hclr, fun _ => ?_⟩
              have h1 : (1 : ℤ) ≤ (counter : ℤ) := by
                exact_mod_cast le_trans h1c hcc
              linarith
            · refine ⟨fun hm => hP.1 (List.mem_cons_of_mem cl hm), fun hm => ?_⟩
              apply hP.2
              simp [List.mem_cons, hlab, hm]
          obtain ⟨g1, g2, g3, g4, g5⟩ :=
            ih nl2 sc.2 nl c2 hndr h1c hcc2 hlen2 hI2n hI4n hI3n hrun
          exact ⟨g1, le_trans hrle g2, g3, g4, g5⟩
    · rw [if_neg hcond] at hrun
      have hmask_len : (labels.map (fun l => l == cl)).length
          = newLabels.length := by simp [hlen]
      have hsp := assignMask_eq_splice (counter : ℤ) newLabels
        (labels.map (fun l => l == cl)) hmask_len
      have hlen2 : (assignMask newLabels (labels.map (fun l => l == cl))
          (counter : ℤ)).length = labels.length :=
        (splice_length _ _ _ _ hsp).trans hlen
      have hcc2 : c0 ≤ counter + 1 := le_trans hcc (Nat.le_succ _)
      have hI2n : ∀ l ∈ assignMask newLabels (labels.map (fun l => l == cl))
          (counter : ℤ), l = 0 ∨ ((c0 : ℤ) ≤ l ∧ l < ((counter + 1 : ℕ) : ℤ)) := by
        intro l hl
        rcases splice_mem _ _ _ _ hsp l hl with hm | hm
        · rcases hI2 l hm with h0 | ⟨ha, hb⟩
          · exact Or.inl h0
          · refine Or.inr ⟨ha, ?_⟩
            push_cast
            linarith
        · have hlc : l = (counter : ℤ) := List.eq_of_mem_replicate hm
          subst hlc
          refine Or.inr ⟨by exact_mod_cast hcc, by push_cast; linarith⟩
      have hI4n : tv < 1 → ∀ l : ℤ, l ≠ 0 →
          (assignMask newLabels (labels.map (fun l => l == cl))
            (counter : ℤ)).count l ≤ maxB := by
        intro htv l hl0
        have hle : labels.count cl ≤ maxB := by
          rcases not_and_or.mp hcond with h | h
          · exact not_lt.mp h
          · exact absurd htv h
        have hid := splice_count _ _ _ _ hsp l
        rw [count_true_mask] at hid
        have hmf0 : (maskFilter newLabels
            (labels.map (fun l => l == cl))).count l = 0 := by
          rw [List.count_eq_zero]
          intro hmem
          exact hl0 (hmz l hmem)
        by_cases hlk : l = (counter : ℤ)
        · have hnew0 : newLabels.count l = 0 := by
            rw [List.count_eq_zero]
            intro hmem
            rcases hI2 l hmem with h0 | ⟨ha, hb⟩
            · exact hl0 h0
            · exact absurd hb (by rw [hlk]; exact lt_irrefl _)
          have hrep : (List.replicate (labels.count cl)
              ((counter : ℕ) : ℤ)).count l = labels.count cl := by
            rw [hlk, List.count_replicate]
            simp
          omega
        · have hrep0 : (List.replicate (labels.count cl)
              ((counter : ℕ) : ℤ)).count l = 0 := by
            rw [List.count_replicate]
            have hb : (((counter : ℕ) : ℤ) == l) = false := by
              rw [beq_eq_false_iff_ne]
              exact Ne.symm hlk
            rw [hb]
            simp
          have h4 := hI4 htv l hl0
          omega
      have hI3n : List.Forall₂
          (fun lab v => (lab ∈ rest → v = 0) ∧ (lab ∉ rest → 1 ≤ v))
          labels (assignMask newLabels (labels.map (fun l => l == cl))
            (counter : ℤ)) := by
        have hsf := splice_forall₂
          (P := fun lab v => (lab ∈ cl :: rest → v = 0) ∧
            (lab ∉ cl :: rest → 1 ≤ v))
          (R := fun v => v = (counter : ℤ))
          cl labels newLabels _ _ hsp hI3
          (fun v hv => List.eq_of_mem_replicate hv)
        refine hsf.imp ?_
        intro lab v hlv
        rcases hlv with ⟨hlab, hR⟩ | ⟨hlab, hP⟩
        · refine ⟨fun hm => absurd (hlab ▸ hm) hclr, fun _ => ?_⟩
          have h1 : (1 : ℤ) ≤ (counter : ℤ) := by
            exact_mod_cast le_trans h1c hcc
          rw [hR]
          linarith
        · refine ⟨fun hm => hP.1 (List.mem_cons_of_mem cl hm), fun hm => ?_⟩
          apply hP.2
          simp [List.mem_cons, hlab, hm]
      obtain ⟨g1, g2, g3, g4, g5⟩ :=
        ih _ _ nl c2 hndr h1c hcc2 hlen2 hI2n hI4n hI3n hrun
      exact ⟨g1, le_trans (Nat.le_succ counter) g2, g3, g4, g5⟩

lemma hCluster_spec (G : List Pt → ℚ → List ℤ) (maxB : ℕ) (tv : ℚ) :
    ∀ (fuel : ℕ) (coords : List Pt) (threshold : ℚ) (counter : ℕ)
      (nl : List ℤ) (c2 : ℕ),
      1 ≤ counter →
      hCluster G maxB tv fuel coords threshold counter = some (nl, c2) →
      nl.length = coords.length ∧ counter ≤ c2 ∧
      (∀ l ∈ nl, (counter : ℤ) ≤ l ∧ l < (c2 : ℤ)) ∧
      (tv < 1 → ∀ l : ℤ, nl.count l ≤ maxB) := by
  intro fuel
  induction fuel with
  | zero =>
    intro coords th c nl c2 h1 h
    simp [hCluster] at h
  | succ fuel ih =>
    intro coords th c nl c2 h1 h
    simp only [hCluster] at h
    by_cases he : coords.isEmpty
    · rw [if_pos he] at h
      simp only [Option.some_inj, Prod.mk.injEq] at h
      obtain ⟨rfl, rfl⟩ := h
      have hc0 : coords.length = 0 := by
        rw [List.isEmpty_iff] at he
        simp [he]
      refine ⟨by simp [hc0], le_refl _, by simp, ?_⟩
      intro _ l
      simp
    · rw [if_neg he] at h
      by_cases hlen : (G coords th).length = coords.length
      · rw [if_pos hlen] at h
        have hspec := goGroups_spec maxB tv (hCluster G maxB tv fuel) coords
          (G coords th) th c
          (fun cs t cc nll cc2 h1c hc => ih cs t cc nll cc2 h1c hc)
          (dedupSort (G coords th)) (List.replicate coords.length 0) c nl c2
          (nodup_dedupSort _) h1 (le_refl c) (by simp [hlen])
          (fun l hl => Or.inl (List.eq_of_mem_replicate hl))
          (by
            intro htv l hl0
            have : (List.replicate coords.length (0 : ℤ)).count l = 0 := by
              rw [List.count_replicate]
              have hb : ((0 : ℤ) == l) = false := by
                rw [beq_eq_false_iff_ne]
                exact Ne.symm hl0
              rw [hb]
              simp
            simp [this])
          (by
            have hrepl : List.replicate coords.length (0 : ℤ)
                = List.replicate (G coords th).length 0 := by rw [hlen]
            rw [hrepl]
            apply forall₂_replicate
            intro a ha
            constructor
            · intro _; rfl
            · intro hna
              exact absurd ((mem_dedupSort a _).mpr ha) hna)
          h
        obtain ⟨g1, g2, g3, g4, g5⟩ := hspec
        refine ⟨g1.trans hlen, g2, ?_, ?_⟩
        · intro l hl
          rcases g3 l hl with h0 | ⟨ha, hb⟩
          · exfalso
            obtain ⟨a, _, hab⟩ := forall₂_mem_right g5 l hl
            rw [h0] at hab
            exact absurd hab (by norm_num)
          · exact ⟨ha, hb⟩
        · intro htv l
          by_cases hl0 : l = 0
          · have : nl.count l = 0 := by
              rw [List.count_eq_zero]
              intro hmem
              obtain ⟨a, _, hab⟩ := forall₂_mem_right g5 l hmem
              rw [hl0] at hab
              exact absurd hab (by norm_num)
            simp [this]
          · exact g4 htv l hl0
      · rw [if_neg hlen] at h
        exact Option.noConfusion h

/-- C2: whenever the splitter is called with shrinkFactor strictly below 1
and returns a labeling, every cluster of the final labeling has population at
most maxClusterSize. -/
theorem split_cap_C2 (G : List Pt → ℚ → List ℤ) (coords : List Pt)
    (maxB : ℕ) (tv : ℚ) (fuel : ℕ) (ls : List ℤ) (htv : tv < 1)
    (h : cluster_buildings_with_size G coords maxB tv fuel = some ls) :
    ∀ l ∈ ls, ls.count l ≤ maxB := by
  cases coords with
  | nil => simp [cluster_buildings_with_size] at h
  | cons c cs =>
    simp only [cluster_buildings_with_size, Option.map_eq_some'] at h
    obtain ⟨⟨nl, c2⟩, hh, hq⟩ := h
    subst hq
    intro l _
    exact (hCluster_spec G maxB tv fuel (c :: cs) _ 1 nl c2 le_rfl hh).2.2.2 htv l

/-- Witness for C2: a concrete run of the splitter with shrinkFactor 1/2
returning the labeling [1], whose single cluster has population 1 <= 5. -/
theorem split_cap_C2_witness :
    cluster_buildings_with_size oracleOne [⟨0, 0⟩] 5 (1 / 2) 2 = some [1] ∧
    ∀ l ∈ [(1 : ℤ)], List.count l [(1 : ℤ)] ≤ 5 := by
  have he : cluster_buildings_with_size oracleOne [⟨0, 0⟩] 5 (1 / 2) 2
      = some [1] := by
    with_unfolding_all decide
  exact ⟨he, split_cap_C2 oracleOne [⟨0, 0⟩] 5 (1 / 2) 2 [1] (by norm_num) he⟩

/-- C6: whenever the splitter returns a labeling, it assigns exactly one
label to each input point (the label array has exactly the input length, so
the union of the clusters is the input set with nothing dropped or
duplicated), every assigned cluster id is a positive integer, and all ids lie
strictly below the final value of the shared counter that started at 1, so no
id is ever reused. -/
theorem split_labels_C6 (G : List Pt → ℚ → List ℤ) (c : Pt) (cs : List Pt)
    (maxB : ℕ) (tv : ℚ) (fuel : ℕ) (ls : List ℤ)
    (h : cluster_buildings_with_size G (c :: cs) maxB tv fuel = some ls) :
    ls.length = (c :: cs).length ∧
    (∀ l ∈ ls, 1 ≤ l) ∧
    ∃ c2 : ℕ, hCluster G maxB tv fuel (c :: cs) (ptpMax c cs * (1 / 10)) 1
        = some (ls, c2) ∧ ∀ l ∈ ls, l < (c2 : ℤ) := by
  have h2 := h
  simp only [cluster_buildings_with_size, Option.map_eq_some'] at h2
  obtain ⟨⟨nl, c2⟩, hh, hq⟩ := h2
  subst hq
  obtain ⟨g1, _, g3, _⟩ :=
    hCluster_spec G maxB tv fuel (c :: cs) (ptpMax c cs * (1 / 10)) 1 nl c2
      le_rfl hh
  exact ⟨g1, fun l hl => by exact_mod_cast (g3 l hl).1,
    c2, hh, fun l hl => (g3 l hl).2⟩

/-- Witness for C6: a concrete run of the splitter; the labeling [1] has one
label per input point, the id 1 is positive, and it is below the final
counter value 2. -/
theorem split_labels_C6_witness :
    cluster_buildings_with_size oracleOne [⟨2, 3⟩] 4 (1 / 2) 3 = some [1] ∧
    [(1 : ℤ)].length = 1 ∧ ∀ l ∈ [(1 : ℤ)], 1 ≤ l := by
  have he : cluster_buildings_with_size oracleOne [⟨2, 3⟩] 4 (1 / 2) 3
      = some [1] := by
    with_unfolding_all decide
  have hs := split_labels_C6 oracleOne ⟨2, 3⟩ [] 4 (1 / 2) 3 [1] he
  exact ⟨he, by simp, hs.2.1⟩

lemma goGroups_rec_irrel (maxB : ℕ) (tv : ℚ)
    (rec1 rec2 : List Pt → ℚ → ℕ → Option (List ℤ × ℕ))
    (coords : List Pt) (labels : List ℤ) (threshold : ℚ) (htv : 1 ≤ tv) :
    ∀ (uniq newLabels : List ℤ) (counter : ℕ),
      goGroups maxB tv rec1 coords labels threshold uniq newLabels counter
        = goGroups maxB tv rec2 coords labels threshold uniq newLabels counter ∧
      (goGroups maxB tv rec1 coords labels threshold uniq newLabels
        counter).isSome := by
  intro uniq
  induction uniq with
  | nil => intro newLabels counter; simp [goGroups]
  | cons cl rest ih =>
    intro newLabels counter
    have hg : ¬(maxB < labels.count cl ∧ tv < 1) := by
      rintro ⟨_, h2⟩
      linarith
    simp only [goGroups, if_neg hg]
    exact ih _ _

lemma hCluster_tv_ge_one (G : List Pt → ℚ → List ℤ) (maxB : ℕ) (tv : ℚ)
    (htv : 1 ≤ tv) (k : ℕ) (coords : List Pt) (th : ℚ) (ctr : ℕ) :
    hCluster G maxB tv (k + 1) coords th ctr
      = hCluster G maxB tv 1 coords th ctr ∧
    ((G coords th).length = coords.length →
      (hCluster G maxB tv (k + 1) coords th ctr).isSome) := by
  simp only [hCluster]
  by_cases he : coords.isEmpty
  · rw [if_pos he, if_pos he]
    exact ⟨rfl, fun _ => rfl⟩
  · rw [if_neg he, if_neg he]
    by_cases hl : (G coords th).length = coords.length
    · rw [if_pos hl, if_pos hl]
      exact ⟨(goGroups_rec_irrel maxB tv _ _ coords _ th htv _ _ _).1,
        fun _ => (goGroups_rec_irrel maxB tv (hCluster G maxB tv k)
          (hCluster G maxB tv k) coords _ th htv _ _ _).2⟩
    · rw [if_neg hl, if_neg hl]
      exact ⟨rfl, fun hc => absurd hc hl⟩

/-- C5 amended: with shrinkFactor at least 1 the splitter never recurses (the
recursion guard requires shrinkFactor strictly below 1, so the result equals
the one-level run with recursion fuel 1), but the call is NOT rejected: for
any nonempty input and a grouping oracle returning one label per point, it
returns a labeling normally, silently accepting the invalid shrink factor. -/
theorem split_reject_C5_amended (G : List Pt → ℚ → List ℤ) (coords : List Pt)
    (maxB : ℕ) (tv : ℚ) (fuel : ℕ)
    (hG : ∀ (cs : List Pt) (t : ℚ), (G cs t).length = cs.length)
    (htv : 1 ≤ tv) (hf : 1 ≤ fuel) :
    cluster_buildings_with_size G coords maxB tv fuel
      = cluster_buildings_with_size G coords maxB tv 1 ∧
    (coords ≠ [] →
      (cluster_buildings_with_size G coords maxB tv fuel).isSome) := by
  obtain ⟨k, rfl⟩ : ∃ k, fuel = k + 1 := ⟨fuel - 1, by omega⟩
  cases coords with
  | nil => simp [cluster_buildings_with_size]
  | cons c cs =>
    have hcl := hCluster_tv_ge_one G maxB tv htv k (c :: cs)
      (ptpMax c cs * (1 / 10)) 1
    constructor
    · simp only [cluster_buildings_with_size]
      rw [hcl.1]
    · intro _
      simp only [cluster_buildings_with_size]
      obtain ⟨a, ha⟩ := Option.isSome_iff_exists.mp (hcl.2 (hG _ _))
      rw [ha]
      rfl

/-- Counterexample to C5: shrinkFactor 1 (which is >= 1) is NOT rejected as a
configuration error: the splitter runs, silently accepts the invalid value,
assigns cluster id 1 to a group of 2 buildings even though maxClusterSize is
0, and returns normally. -/
theorem split_reject_C5_cex :
    (1 : ℚ) ≤ 1 ∧
    cluster_buildings_with_size oracleSeven [⟨0, 0⟩, ⟨1, 0⟩] 0 1 5
      = some [1, 1] ∧
    List.count (1 : ℤ) [(1 : ℤ), 1] = 2 := by
  refine ⟨le_refl 1, ?_, by decide⟩
  with_unfolding_all decide

/-- Witness for the amended C5 at a concrete run: with shrinkFactor 1 the
result equals the fuel-1 run and is returned normally. -/
theorem split_reject_C5_amended_witness :
    cluster_buildings_with_size oracleSeven [⟨0, 0⟩, ⟨1, 0⟩] 0 1 5
      = cluster_buildings_with_size oracleSeven [⟨0, 0⟩, ⟨1, 0⟩] 0 1 1 ∧
    (cluster_buildings_with_size oracleSeven [⟨0, 0⟩, ⟨1, 0⟩] 0 1 5).isSome := by
  have h := split_reject_C5_amended oracleSeven [⟨0, 0⟩, ⟨1, 0⟩] 0 1 5
    (fun cs t => by simp [oracleSeven]) (le_refl 1) (by norm_num)
  exact ⟨h.1, h.2 (by simp)⟩

/-- Witness for the amended C4 at a concrete oracle: with 100 buildings at
every radius the expansion stops immediately, the bisection interval is
degenerate at the initial radius 2, and the engine returns the sorted,
truncated query at that radius. -/
theorem bisection_C4_amended_witness :
    (2 : ℚ) - 2 ≤ 1 / 10 ∧
    bandMin 100 (1 / 10) ≤ ((fetchC1 2).length : ℤ) ∧
    getBuildingsAroundPin fetchC1 1 100 (1 / 10)
      = (sortByDist (fetchC1 2)).take (bandMax 100 (1 / 10)).toNat := by
  have h := bisection_C4_amended fetchC1 1 100 (1 / 10) 2 2 (by norm_num)
    (by norm_num) (by norm_num) (by with_unfolding_all decide)
    (by with_unfolding_all decide)
  simpa using h
